import Mathlib

set_option maxRecDepth 8000

/-!
Verification of the RAG context engine of this repository
(`lib/rag.ts`, `pages/api/chat.ts`, `scripts/build-knowledge-base.mjs`).

Shallow embedding conventions:
* JavaScript numbers are modelled as exact rationals `ℚ`; all machine counts
  are `Nat`.
* `Math.sqrt` is modelled by `mathSqrt`, which is exact at every rational that
  has a rational square root (the only points at which any theorem below
  inspects its value) and nonnegative everywhere.
* The external embedding provider is an oracle argument; a thrown JavaScript
  exception is an `Except.error` / `Option.none` result.
* The module-level mutable state of `lib/rag.ts` (the query-embedding cache, a
  JavaScript `Map` iterated in insertion order) is passed explicitly as an
  association list whose head is the oldest inserted pair.
-/

/-- KnowledgeEntry of `lib/rag.ts` (`KBEntry`): id, text, source tag, metadata
record (modelled as string key/value pairs in object order) and embedding. -/
structure KBEntry where
  id : String
  text : String
  source : String
  metadata : List (String × String)
  embedding : List ℚ
deriving DecidableEq, Repr

/-- A knowledge-base entry paired with its retrieval score, the element type of
the `scored` array built inside `retrieveRelevantContext` and
`lexicalRetrieve`. -/
structure Scored where
  entry : KBEntry
  score : ℚ
deriving DecidableEq, Repr

/-- Largest k ≤ bound with k*k ≤ n, by downward search (structural recursion so
that the kernel can evaluate it). -/
def sqrtAux (n : ℕ) : ℕ → ℕ
  | 0 => 0
  | k + 1 => if (k + 1) * (k + 1) ≤ n then k + 1 else sqrtAux n k

/-- Natural square root: exact on perfect squares. -/
def natSqrt (n : ℕ) : ℕ := sqrtAux n n

/-- Model of `Math.sqrt` on exact rationals: exact whenever the argument has a
rational square root, which covers every input any theorem in this file
evaluates it at; nonnegative everywhere, and 0 at 0. -/
def mathSqrt (q : ℚ) : ℚ :=
  if q ≤ 0 then 0 else (natSqrt q.num.toNat : ℚ) / (natSqrt q.den : ℚ)

/-- Dot product over the common length of the two vectors, exactly the `dot`
accumulator of `cosineSim` in `lib/rag.ts` (the loop runs to
`Math.min(a.length, b.length)`). -/
def dotList (a b : List ℚ) : ℚ := (List.zipWith (fun x y => x * y) a b).sum

/-- Sum of squares of the first `min a.length b.length` components of `v`, the
`magA`/`magB` accumulators of `cosineSim` (they also stop at the common
length). -/
def magPart (v w : List ℚ) : ℚ :=
  ((v.take (min v.length w.length)).map (fun x => x * x)).sum

/-- The `denom` local of `cosineSim`: `Math.sqrt(magA) * Math.sqrt(magB) || 1`.
JavaScript `|| 1` replaces a zero (falsy) product by 1; it does not floor the
product at 1. -/
def cosDenom (a b : List ℚ) : ℚ :=
  let raw := mathSqrt (magPart a b) * mathSqrt (magPart b a)
  if raw = 0 then 1 else raw

/-- `cosineSim` of `lib/rag.ts`: dot product over the common length, divided by
the product of the two partial magnitudes, with a zero denominator replaced
by 1. -/
def cosineSim (a b : List ℚ) : ℚ := dotList a b / cosDenom a b

/-- Modelled from the spec (refinement comparison only): cosine similarity with
the denominator "floored at 1" as the spec words it, i.e. the denominator is
`max (‖a‖·‖b‖) 1` and is never less than 1. -/
def cosineSimSpec (a b : List ℚ) : ℚ :=
  dotList a b / max (mathSqrt (magPart a b) * mathSqrt (magPart b a)) 1

/-- Stable descending insertion: places `x` after every element of strictly
greater score and before the first element of smaller-or-equal score. -/
def insertScoredDesc (x : Scored) : List Scored → List Scored
  | [] => [x]
  | y :: ys => if y.score ≤ x.score then x :: y :: ys else y :: insertScoredDesc x ys

/-- Stable sort by descending score. This is the unique stable descending
ordering, hence the result of the ECMAScript (stable) `Array.prototype.sort`
with comparator `(a, b) => b.score - a.score` used throughout `lib/rag.ts`. -/
def sortScoredDesc : List Scored → List Scored
  | [] => []
  | x :: xs => insertScoredDesc x (sortScoredDesc xs)

theorem mathSqrt_nonneg (q : ℚ) : 0 ≤ mathSqrt q := by
  unfold mathSqrt
  split
  · exact le_refl 0
  · positivity

theorem cosDenom_pos (a b : List ℚ) : 0 < cosDenom a b := by
  unfold cosDenom
  set raw := mathSqrt (magPart a b) * mathSqrt (magPart b a) with hraw
  have hnn : 0 ≤ raw := mul_nonneg (mathSqrt_nonneg _) (mathSqrt_nonneg _)
  by_cases h : raw = 0
  · simp [h]
  · simp only [h, if_false]
    exact lt_of_le_of_ne hnn (Ne.symm h)

theorem dotList_eq_zero_of_left_zero (a b : List ℚ)
    (h : ∀ x ∈ a, x = 0) : dotList a b = 0 := by
  induction a generalizing b with
  | nil => simp [dotList]
  | cons x xs ih =>
    cases b with
    | nil => simp [dotList]
    | cons y ys =>
      have hx : x = 0 := h x (List.mem_cons_self x xs)
      have hxs : ∀ z ∈ xs, z = 0 := fun z hz => h z (List.mem_cons_of_mem x hz)
      simp [dotList, hx]
      simpa [dotList] using ih ys hxs

theorem mem_insertScoredDesc {z x : Scored} {l : List Scored} :
    z ∈ insertScoredDesc x l ↔ z = x ∨ z ∈ l := by
  induction l with
  | nil => simp [insertScoredDesc]
  | cons y ys ih =>
    by_cases h : y.score ≤ x.score
    · simp [insertScoredDesc, h]
    · simp [insertScoredDesc, h, ih]
      tauto

theorem pairwise_insertScoredDesc {x : Scored} {l : List Scored}
    (hl : l.Pairwise (fun a b => b.score ≤ a.score)) :
    (insertScoredDesc x l).Pairwise (fun a b => b.score ≤ a.score) := by
  induction l with
  | nil => simp [insertScoredDesc]
  | cons y ys ih =>
    rcases List.pairwise_cons.mp hl with ⟨hy, hys⟩
    by_cases h : y.score ≤ x.score
    · simp only [insertScoredDesc, if_pos h]
      refine List.pairwise_cons.mpr ⟨?_, hl⟩
      intro z hz
      rcases List.mem_cons.mp hz with rfl | hz'
      · exact h
      · exact le_trans (hy z hz') h
    · simp only [insertScoredDesc, if_neg h]
      refine List.pairwise_cons.mpr ⟨?_, ih hys⟩
      intro z hz
      rcases mem_insertScoredDesc.mp hz with rfl | hz'
      · exact le_of_lt (lt_of_not_le h)
      · exact hy z hz'

theorem pairwise_sortScoredDesc (l : List Scored) :
    (sortScoredDesc l).Pairwise (fun a b => b.score ≤ a.score) := by
  induction l with
  | nil => simp [sortScoredDesc]
  | cons x xs ih => exact pairwise_insertScoredDesc ih

theorem filter_insertScoredDesc (s : ℚ) (x : Scored) (l : List Scored) :
    (insertScoredDesc x l).filter (fun z => decide (z.score = s)) =
      if x.score = s then x :: l.filter (fun z => decide (z.score = s))
      else l.filter (fun z => decide (z.score = s)) := by
  induction l with
  | nil =>
    by_cases hx : x.score = s <;> simp [insertScoredDesc, List.filter, hx]
  | cons y ys ih =>
    by_cases h : y.score ≤ x.score
    · simp only [insertScoredDesc, if_pos h]
      by_cases hx : x.score = s <;> simp [List.filter, hx]
    · simp only [insertScoredDesc, if_neg h]
      by_cases hy : y.score = s
      · by_cases hx : x.score = s
        · exact absurd (le_of_eq (hy.trans hx.symm)) h
        · simp [List.filter, hy, hx, ih]
      · by_cases hx : x.score = s <;> simp [List.filter, hy, hx, ih]

theorem filter_sortScoredDesc (s : ℚ) (l : List Scored) :
    (sortScoredDesc l).filter (fun z => decide (z.score = s)) =
      l.filter (fun z => decide (z.score = s)) := by
  induction l with
  | nil => simp [sortScoredDesc]
  | cons x xs ih =>
    by_cases hx : x.score = s <;>
      simp [sortScoredDesc, filter_insertScoredDesc, hx, List.filter, ih]

/-- JavaScript `toLowerCase`, character by character (ASCII case folding; every
string any claim evaluates is ASCII). Implemented on the character list so the
kernel can evaluate it. -/
def jsLower (s : String) : String := ⟨s.data.map Char.toLower⟩

/-- JavaScript `trim`: drop whitespace from both ends. -/
def jsTrim (s : String) : String :=
  ⟨((s.data.dropWhile Char.isWhitespace).reverse.dropWhile Char.isWhitespace).reverse⟩

/-- JavaScript `slice(0, n)` on a string. -/
def jsTake (s : String) (n : ℕ) : String := ⟨s.data.take n⟩

/-- Does the character list start with the given needle? -/
def listStartsWith : List Char → List Char → Bool
  | _, [] => true
  | [], _ :: _ => false
  | c :: cs, d :: ds => c == d && listStartsWith cs ds

/-- Does the needle occur as a contiguous sublist? -/
def listHasSub (needle : List Char) : List Char → Bool
  | [] => listStartsWith [] needle
  | c :: cs => listStartsWith (c :: cs) needle || listHasSub needle cs

/-- JavaScript `hay.includes(needle)`. -/
def strIncludes (hay needle : String) : Bool := listHasSub needle.data hay.data

/-- Separator predicate of the lexical tokenizer regex `[^a-z0-9]+` (applied
after `toLowerCase`). -/
def isLexSep (c : Char) : Bool := !((('a' ≤ c) && (c ≤ 'z')) || (('0' ≤ c) && (c ≤ '9')))

/-- Split a character list at every character satisfying `p`. -/
def splitChars (p : Char → Bool) : List Char → List (List Char)
  | [] => [[]]
  | c :: cs =>
    match splitChars p cs with
    | [] => [[c]]
    | h :: t => if p c then [] :: h :: t else (c :: h) :: t

/-- Lexical query terms: `q.split(/[^a-z0-9]+/g).filter(Boolean)` on the
lowercased query. Splitting at every separator character and dropping empty
pieces coincides with splitting on separator runs. -/
def lexTerms (query : String) : List String :=
  ((splitChars isLexSep (jsLower query).data).map (fun cs => (⟨cs⟩ : String))).filter
    (fun t => t ≠ "")

/-- Comma-join, JavaScript `Array.prototype.join(",")`. -/
def joinCommaSep : List String → String
  | [] => ""
  | [s] => s
  | s :: r :: rest => s ++ "," ++ joinCommaSep (r :: rest)

/-- JSON.stringify of the flat string-valued metadata record, in object order
(object key order is insertion order for string keys in JavaScript). -/
def jsonStringify (md : List (String × String)) : String :=
  "\x7b" ++ joinCommaSep (md.map (fun kv => "\"" ++ kv.1 ++ "\":\"" ++ kv.2 ++ "\"")) ++ "\x7d"

/-- Keyword test of `lexicalRetrieve`:
`/(price|cost|\$|stock|available|inventory|doa|warranty)/i.test(query)`. -/
def priceQuery (query : String) : Bool :=
  ["price", "cost", "$", "stock", "available", "inventory", "doa", "warranty"].any
    (fun k => strIncludes (jsLower query) k)

/-- Lexical score of one entry in `lexicalRetrieve` (`lib/rag.ts` 241-263):
count query terms of length ≥ 2 occurring in the lowercased concatenation of
source, text and stringified metadata, plus 1.5 for a `price_sheet` entry when
the query matches the pricing keywords. -/
def lexScore (query : String) (entry : KBEntry) : ℚ :=
  let hay := jsLower (entry.source ++ "\n" ++ entry.text ++ "\n" ++ jsonStringify entry.metadata)
  let base := (lexTerms query).foldl
    (fun acc t => if t.length < 2 then acc else if strIncludes hay t then acc + 1 else acc) 0
  if entry.source = "price_sheet" && priceQuery query then base + 3 / 2 else base

/-- First metadata value under a key, JavaScript property access `meta[k]` on
the flat record. -/
def lookupMeta (md : List (String × String)) (k : String) : Option String :=
  (md.find? (fun kv => kv.1 == k)).map (fun kv => kv.2)

/-- One metadata boost of `retrieveRelevantContext`: bonus added when the field
is present, nonempty and its lowercased value occurs in the lowercased
query. -/
def metaBoost (md : List (String × String)) (qLower : String) (key : String) (bonus : ℚ) : ℚ :=
  match lookupMeta md key with
  | none => 0
  | some v => if v ≠ "" && strIncludes qLower (jsLower v) then bonus else 0

/-- Embedding-path score of one entry (`lib/rag.ts` 286-305): cosine similarity
plus a 0.04 `model_name` boost and a 0.02 `product_id` boost. -/
def scoreSemantic (qe : List ℚ) (query : String) (e : KBEntry) : ℚ :=
  let qLower := jsLower query
  cosineSim qe e.embedding
    + metaBoost e.metadata qLower "model_name" (4 / 100)
    + metaBoost e.metadata qLower "product_id" (2 / 100)

/-- The `scored` array of the embedding path, in knowledge-base order. -/
def semanticScored (kb : List KBEntry) (qe : List ℚ) (query : String) : List Scored :=
  kb.map (fun e => ⟨e, scoreSemantic qe query e⟩)

/-- The `scored` array of `lexicalRetrieve`, in knowledge-base order. -/
def lexicalScored (kb : List KBEntry) (query : String) : List Scored :=
  kb.map (fun e => ⟨e, lexScore query e⟩)

/-- Embedding-path result: sort by descending score (stable), take `topK`, drop
the scores. -/
def retrieveScoredSemantic (kb : List KBEntry) (qe : List ℚ) (query : String) (topK : ℕ) :
    List KBEntry :=
  ((sortScoredDesc (semanticScored kb qe query)).take topK).map (fun z => z.entry)

/-- `lexicalRetrieve` of `lib/rag.ts`: lexical scoring, stable descending sort,
first `topK` entries. -/
def lexicalRetrieve (kb : List KBEntry) (query : String) (topK : ℕ) : List KBEntry :=
  ((sortScoredDesc (lexicalScored kb query)).take topK).map (fun z => z.entry)

/-- Query-embedding cache capacity `QUERY_EMBED_CACHE_MAX` of `lib/rag.ts`. -/
def QUERY_EMBED_CACHE_MAX : ℕ := 200

/-- The query-embedding cache: a JavaScript `Map` in insertion order, oldest
inserted pair first. -/
abbrev EmbedCache := List (String × List ℚ)

/-- Failure of `embedQuery`: the provider call threw, or it returned an empty
vector (`Embedding returned empty vector`). -/
inductive EmbedErr where
  | providerFailed
  | emptyVector
deriving DecidableEq, Repr

/-- Cache-key normalization of `embedQuery`: `text.trim().slice(0, 5000)`. -/
def normalizeKey (text : String) : String := jsTake (jsTrim text) 5000

/-- Map.get on the insertion-ordered cache. -/
def lookupCache (c : EmbedCache) (k : String) : Option (List ℚ) :=
  (c.find? (fun kv => kv.1 == k)).map (fun kv => kv.2)

/-- One call of `embedQuery` (`lib/rag.ts` 208-235). The provider oracle maps
the raw text to `some` returned vector or `none` for a thrown provider error.
Result: outcome, updated cache, number of provider calls made (0 or 1). On a
cache hit the cached vector is returned; on a miss the provider is called, an
empty vector is an error, and a successful vector is appended to the cache,
evicting the oldest (first) entry when the size exceeds the capacity. -/
def embedQueryStep (cache : EmbedCache) (provider : String → Option (List ℚ))
    (text : String) : Except EmbedErr (List ℚ) × EmbedCache × ℕ :=
  let key := normalizeKey text
  match lookupCache cache key with
  | some v => (.ok v, cache, 0)
  | none =>
    match provider text with
    | none => (.error .providerFailed, cache, 1)
    | some emb =>
      if emb = [] then (.error .emptyVector, cache, 1)
      else
        let c1 := cache ++ [(key, emb)]
        let c2 := if QUERY_EMBED_CACHE_MAX < c1.length then c1.drop 1 else c1
        (.ok emb, c2, 1)

/-- `loadKB` of `lib/rag.ts` over the process-wide `KB_CACHE` and the on-disk
artifact (already parsed; `JSON.parse` is outside the model). Returns the
knowledge base and the updated `KB_CACHE`. A missing file yields the empty
knowledge base, never an error. -/
def loadKB (kbCache : Option (List KBEntry)) (disk : Option (List KBEntry)) :
    List KBEntry × Option (List KBEntry) :=
  match kbCache with
  | some kb => (kb, some kb)
  | none =>
    match disk with
    | none => ([], some [])
    | some kb => (kb, some kb)

/-- The `kbHasEmbeddings` check of `retrieveRelevantContext`: some entry has a
non-empty embedding. -/
def kbHasEmbeddings (kb : List KBEntry) : Bool := kb.any (fun e => !e.embedding.isEmpty)

/-- `retrieveRelevantContext` of `lib/rag.ts` (269-314) over an already loaded
knowledge base. Returns the entries together with the updated query-embedding
cache and the number of provider calls. Empty knowledge base: empty result,
no provider call. No entry with an embedding: lexical retrieval, no provider
call. Otherwise the query is embedded through the cache; on success entries
are scored semantically, and any embedding failure is caught and answered by
lexical retrieval. -/
def retrieveRelevantContext (cache : EmbedCache) (provider : String → Option (List ℚ))
    (kb : List KBEntry) (query : String) (topK : ℕ) :
    List KBEntry × EmbedCache × ℕ :=
  if kb.isEmpty then ([], cache, 0)
  else if !kbHasEmbeddings kb then (lexicalRetrieve kb query topK, cache, 0)
  else
    match embedQueryStep cache provider query with
    | (.ok qe, c, n) => (retrieveScoredSemantic kb qe query topK, c, n)
    | (.error _, c, n) => (lexicalRetrieve kb query topK, c, n)

/-- Provider error as seen by the retry helpers: the HTTP-like `err.status` and
the structured RetryInfo hint. `parseRetryDelaySeconds` walks
`err.errorDetails` for a RetryInfo entry whose `retryDelay` matches
`/^(\d+)\s*s$/`; that extraction is modelled by the `retryDelaySec` field. -/
structure GenErr where
  status : ℕ
  retryDelaySec : Option ℕ
deriving DecidableEq, Repr

/-- `parseRetryDelaySeconds` of `scripts/build-knowledge-base.mjs`,
`pages/api/chat.ts` and `lib/rag.ts`: the structured "retry after N seconds"
hint, when present. -/
def parseRetryDelaySeconds (e : GenErr) : Option ℕ := e.retryDelaySec

/-- Backoff of the `withRetry` helpers, in milliseconds, before retry number
`attempt` (the incremented attempt counter): `(retrySec + 1) * 1000` when a
hint is present, else `Math.min(60000, 1000 * 2 ** attempt)`. -/
def backoffMs (e : GenErr) (attempt : ℕ) : ℕ :=
  match parseRetryDelaySeconds e with
  | some n => (n + 1) * 1000
  | none => min 60000 (1000 * 2 ^ attempt)

/-- Backoff of `embedWithRetry` in the `lib/rag.ts` revision that sniffs 429
from the message: `Math.min(30000, 1000 * Math.pow(2, attempt))` — capped at
30 s and computed without consulting any retry hint. -/
def embedBackoffMs (attempt : ℕ) : ℕ := min 30000 (1000 * 2 ^ attempt)

/-- The retry loop shared by `withRetry` (build script, rag, chat) and
`embedWithRetry`, compiled from the source `while (true)` loop. `call i` is
the outcome of the (i+1)-th provider call. The loop retries while the error is
retryable and the incremented attempt counter stays within `maxRetries`; the
bound is compiled into the structural `fuel` argument, which the wrappers set
so that `fuel = maxRetries - attempt` (then `fuel = 0` exactly when the source
guard `attempt > maxRetries` fires). Returns the final outcome and the list of
computed backoff delays, in order. -/
def retryGo (retryable : GenErr → Bool) (backoff : GenErr → ℕ → ℕ)
    (call : ℕ → Except GenErr α) : ℕ → ℕ → Except GenErr α × List ℕ
  | attempt, fuel =>
    match call attempt with
    | .ok a => (.ok a, [])
    | .error e =>
      match fuel with
      | 0 => (.error e, [])
      | f + 1 =>
        if retryable e then
          let rest := retryGo retryable backoff call (attempt + 1) f
          (rest.1, backoff e (attempt + 1) :: rest.2)
        else (.error e, [])

/-- `withRetry` of `scripts/build-knowledge-base.mjs` (785-817) and of the
`lib/rag.ts` revision with model probing (82-105): retryable means
`err.status === 429` only. -/
def withRetry (call : ℕ → Except GenErr α) (maxRetries : ℕ) : Except GenErr α × List ℕ :=
  retryGo (fun e => e.status == 429) backoffMs call 0 maxRetries

/-- `withRetry` of `pages/api/chat.ts` (65-92): retryable means
`status === 429 || status === 500 || status === 503`. -/
def chatWithRetry (call : ℕ → Except GenErr α) (maxRetries : ℕ) : Except GenErr α × List ℕ :=
  retryGo (fun e => e.status == 429 || e.status == 500 || e.status == 503) backoffMs call 0 maxRetries

/-- `embedWithRetry` of the message-sniffing `lib/rag.ts` revision (65-95):
retryable means the message indicates 429 (modelled via `status`), and the
backoff ignores hints and is capped at 30 s. -/
def embedWithRetry (call : ℕ → Except GenErr α) (maxRetries : ℕ) : Except GenErr α × List ℕ :=
  retryGo (fun e => e.status == 429) (fun _ a => embedBackoffMs a) call 0 maxRetries

/-- Probe failure inside `pickEmbeddingModel`: the propagated probe message, or
the `No embedding model worked` error after exhausting all candidates. -/
inductive PickErr where
  | probeFailed (msg : String)
  | noModelWorked
deriving DecidableEq, Repr

/-- Candidate loop of `pickEmbeddingModel`: probe the candidates in order,
commit to the first success; accumulates the list of probed models. -/
def pickLoop (probe : String → Except String Unit) :
    List String → List String → Except PickErr String × Option String × List String
  | [], probed => (.error .noModelWorked, none, probed)
  | m :: ms, probed =>
    match probe m with
    | .ok _ => (.ok m, some m, probed ++ [m])
    | .error _ => pickLoop probe ms (probed ++ [m])

/-- `pickEmbeddingModel` of `lib/rag.ts` (76-98). State `selected` is the
module-level `SELECTED_EMBED_MODEL`; the probe oracle is `tryEmbedOnce`.
Returns the outcome, the new `SELECTED_EMBED_MODEL`, and the list of models
probed during the call, in order. A committed model is returned immediately
with no probe; an explicit override is probed alone and its failure
propagates without probing any candidate. -/
def pickEmbeddingModel (probe : String → Except String Unit) (override : String)
    (candidates : List String) (selected : Option String) :
    Except PickErr String × Option String × List String :=
  match selected with
  | some m => (.ok m, some m, [])
  | none =>
    if override ≠ "" then
      match probe override with
      | .ok _ => (.ok override, some override, [override])
      | .error e => (.error (.probeFailed e), none, [override])
    else pickLoop probe candidates []

theorem sqrtAux_mul_self (n : ℕ) : ∀ b : ℕ, n ≤ b → sqrtAux (n * n) b = n := by
  intro b
  induction b with
  | zero =>
    intro hb
    interval_cases n
    rfl
  | succ k ih =>
    intro hb
    by_cases hn : n = k + 1
    · subst hn
      simp [sqrtAux]
    · have hk : n ≤ k := by omega
      have hlt : n * n < (k + 1) * (k + 1) := Nat.mul_self_lt_mul_self (by omega)
      have : ¬ (k + 1) * (k + 1) ≤ n * n := by omega
      simp only [sqrtAux, if_neg this]
      exact ih hk

theorem natSqrt_mul_self (n : ℕ) : natSqrt (n * n) = n := by
  unfold natSqrt
  refine sqrtAux_mul_self n (n * n) ?_
  cases n with
  | zero => simp
  | succ m => exact Nat.le_mul_of_pos_left (m + 1) (Nat.succ_pos m)

theorem mathSqrt_mul_self (r : ℚ) (hr : 0 ≤ r) : mathSqrt (r * r) = r := by
  rcases eq_or_lt_of_le hr with h0 | hpos
  · rw [← h0]
    simp [mathSqrt]
  · have hrr : 0 < r * r := mul_pos hpos hpos
    have hnle : ¬ r * r ≤ 0 := not_le.mpr hrr
    unfold mathSqrt
    rw [if_neg hnle]
    have hnum : (r * r).num = r.num * r.num := Rat.mul_self_num r
    have hden : (r * r).den = r.den * r.den := Rat.mul_self_den r
    have htoNat : (r.num * r.num).toNat = r.num.natAbs * r.num.natAbs := by
      rw [← Int.natAbs_mul_self]
      exact Int.toNat_ofNat _
    rw [hnum, hden, htoNat, natSqrt_mul_self, natSqrt_mul_self]
    have hnn : 0 ≤ r.num := Rat.num_nonneg.mpr hr
    have habs : (r.num.natAbs : ℚ) = (r.num : ℚ) := by
      rw [Int.cast_natAbs]
      exact congrArg (fun z : ℤ => (z : ℚ)) (abs_of_nonneg hnn)
    rw [habs]
    exact Rat.num_div_den r

theorem lexicalRetrieve_nil (query : String) (topK : ℕ) :
    lexicalRetrieve [] query topK = [] := by
  simp [lexicalRetrieve, lexicalScored, sortScoredDesc]

/-- C10: with an empty loaded knowledge base, `retrieveRelevantContext` returns
the empty list, leaves the query-embedding cache untouched, and makes no
embedding-provider call: the empty-KB check short-circuits before `embedQuery`
is reached. -/
theorem retrieveRelevantContext_empty_kb (cache : EmbedCache)
    (provider : String → Option (List ℚ)) (query : String) (topK : ℕ) :
    retrieveRelevantContext cache provider [] query topK = ([], cache, 0) := rfl

/-- C9: a missing knowledge-base artifact loads as the empty knowledge base
(also caching the empty base), not as an error, and every
`retrieveRelevantContext` call over it returns the empty list. -/
theorem loadKB_missing_artifact (cache : EmbedCache)
    (provider : String → Option (List ℚ)) (query : String) (topK : ℕ) :
    (loadKB none none).1 = [] ∧
    (loadKB none none).2 = some [] ∧
    (∀ disk, (loadKB (some []) disk).1 = []) ∧
    (retrieveRelevantContext cache provider (loadKB none none).1 query topK).1 = [] :=
  ⟨rfl, rfl, fun _ => rfl, rfl⟩

/-- C1: whenever embedding the query fails — provider exception or an empty
returned vector — `retrieveRelevantContext` does not propagate the error: its
result is exactly the lexical retrieval over the loaded knowledge base. -/
theorem retrieveRelevantContext_absorbs_embed_failure (cache : EmbedCache)
    (provider : String → Option (List ℚ)) (kb : List KBEntry) (query : String)
    (topK : ℕ) (e : EmbedErr) (c : EmbedCache) (n : ℕ)
    (h : embedQueryStep cache provider query = (.error e, c, n)) :
    (retrieveRelevantContext cache provider kb query topK).1 =
      lexicalRetrieve kb query topK := by
  by_cases hkb : kb.isEmpty
  · have hnil : kb = [] := by
      cases kb with
      | nil => rfl
      | cons a as => simp [List.isEmpty] at hkb
    subst hnil
    exact (lexicalRetrieve_nil query topK).symm
  · unfold retrieveRelevantContext
    rw [if_neg (by simpa using hkb)]
    by_cases hemb : kbHasEmbeddings kb
    · rw [if_neg (by simpa using hemb), h]
    · rw [if_pos (by simpa using hemb)]

/-- Closed instance discharging the hypotheses of
`retrieveRelevantContext_absorbs_embed_failure` at a concrete input. -/
theorem retrieveRelevantContext_absorbs_embed_failure_witness :
    embedQueryStep [] (fun _ => none) "x" = (.error .providerFailed, [], 1) ∧
    (retrieveRelevantContext [] (fun _ => none)
        [⟨"p1", "t", "price_sheet", [("model_name", "s19")], [1]⟩] "x" 3).1 =
      lexicalRetrieve [⟨"p1", "t", "price_sheet", [("model_name", "s19")], [1]⟩] "x" 3 :=
  ⟨rfl, retrieveRelevantContext_absorbs_embed_failure [] (fun _ => none)
    [⟨"p1", "t", "price_sheet", [("model_name", "s19")], [1]⟩] "x" 3
    .providerFailed [] 1 rfl⟩

/-- C3 counterexample: at `a = b = [1/2]` the denominator `cosineSim` actually
uses is `1/4 < 1` — it is not floored at 1 — and the result `1` differs from
the `1/4` produced by the spec-worded floored-denominator formula. -/
theorem cosineSim_denominator_below_one :
    cosDenom [(1 : ℚ)/2] [(1 : ℚ)/2] = 1/4 ∧
    cosDenom [(1 : ℚ)/2] [(1 : ℚ)/2] < 1 ∧
    cosineSim [(1 : ℚ)/2] [(1 : ℚ)/2] = 1 ∧
    cosineSimSpec [(1 : ℚ)/2] [(1 : ℚ)/2] = 1/4 ∧
    cosineSim [(1 : ℚ)/2] [(1 : ℚ)/2] ≠ cosineSimSpec [(1 : ℚ)/2] [(1 : ℚ)/2] := by
  have hm : magPart [(1 : ℚ)/2] [(1 : ℚ)/2] = (1/2) * (1/2) := by simp [magPart]
  have hs : mathSqrt ((1/2 : ℚ) * (1/2)) = 1/2 := mathSqrt_mul_self _ (by norm_num)
  have hden : cosDenom [(1 : ℚ)/2] [(1 : ℚ)/2] = 1/4 := by
    simp only [cosDenom, hm, hs]
    norm_num
  have hsim : cosineSim [(1 : ℚ)/2] [(1 : ℚ)/2] = 1 := by
    simp only [cosineSim, hden]
    norm_num [dotList]
  have hspec : cosineSimSpec [(1 : ℚ)/2] [(1 : ℚ)/2] = 1/4 := by
    simp only [cosineSimSpec, hm, hs]
    norm_num [dotList]
  refine ⟨hden, by rw [hden]; norm_num, hsim, hspec, ?_⟩
  rw [hsim, hspec]
  norm_num

/-- C3 amended: `cosineSim a b` is the dot product over the common length
divided by `cosDenom a b`, which is the product of the two magnitudes with a
zero product replaced by 1 (it is not floored at 1 and can be smaller than 1).
That denominator is always strictly positive, so the score is a well-defined
finite rational, and an all-zero (in particular empty) vector yields score 0
rather than an exception. -/
theorem cosineSim_total_and_zero_safe (a b : List ℚ) :
    cosineSim a b = dotList a b / cosDenom a b ∧
    0 < cosDenom a b ∧
    cosDenom a b ≠ 0 ∧
    ((∀ x ∈ a, x = 0) → cosineSim a b = 0) ∧
    cosineSim [] [] = 0 := by
  refine ⟨rfl, cosDenom_pos a b, ne_of_gt (cosDenom_pos a b), ?_, ?_⟩
  · intro hz
    unfold cosineSim
    rw [dotList_eq_zero_of_left_zero a b hz, zero_div]
  · unfold cosineSim
    rw [dotList_eq_zero_of_left_zero [] [] (by intro x hx; cases hx), zero_div]

/-- Closed instance discharging the all-zero hypothesis of
`cosineSim_total_and_zero_safe` at a concrete input. -/
theorem cosineSim_total_and_zero_safe_witness :
    (∀ x ∈ [(0 : ℚ), 0], x = 0) ∧ cosineSim [(0 : ℚ), 0] [(3 : ℚ)] = 0 := by
  have hz : ∀ x ∈ [(0 : ℚ), 0], x = 0 := by
    intro x hx
    rcases List.mem_cons.mp hx with rfl | hx'
    · rfl
    · rcases List.mem_cons.mp hx' with rfl | hx''
      · rfl
      · cases hx''
  exact ⟨hz, (cosineSim_total_and_zero_safe [(0 : ℚ), 0] [(3 : ℚ)]).2.2.2.1 hz⟩

theorem length_take_map_le (l : List Scored) (k : ℕ) :
    (((sortScoredDesc l).take k).map (fun z => z.entry)).length ≤ k := by
  rw [List.length_map, List.length_take]
  exact min_le_left _ _

/-- C2: `retrieveRelevantContext` returns at most `topK` entries, and on both
scoring paths the ranked list the result is read off from is sorted by
non-increasing score while entries of equal score keep their knowledge-base
order: the ranked prefix filtered to any score value `s` is a sublist of the
knowledge-base-ordered scored list filtered to `s` (the sort is stable and
`take` preserves order). -/
theorem retrieveRelevantContext_topK_sorted_stable (cache : EmbedCache)
    (provider : String → Option (List ℚ)) (kb : List KBEntry) (qe : List ℚ)
    (query : String) (topK : ℕ) :
    (retrieveRelevantContext cache provider kb query topK).1.length ≤ topK ∧
    retrieveScoredSemantic kb qe query topK =
      ((sortScoredDesc (semanticScored kb qe query)).take topK).map (fun z => z.entry) ∧
    ((sortScoredDesc (semanticScored kb qe query)).take topK).Pairwise
      (fun x y => y.score ≤ x.score) ∧
    (∀ s : ℚ,
      List.Sublist
        (((sortScoredDesc (semanticScored kb qe query)).take topK).filter
          (fun z => decide (z.score = s)))
        ((semanticScored kb qe query).filter (fun z => decide (z.score = s)))) ∧
    lexicalRetrieve kb query topK =
      ((sortScoredDesc (lexicalScored kb query)).take topK).map (fun z => z.entry) ∧
    ((sortScoredDesc (lexicalScored kb query)).take topK).Pairwise
      (fun x y => y.score ≤ x.score) ∧
    (∀ s : ℚ,
      List.Sublist
        (((sortScoredDesc (lexicalScored kb query)).take topK).filter
          (fun z => decide (z.score = s)))
        ((lexicalScored kb query).filter (fun z => decide (z.score = s)))) := by
  refine ⟨?_, rfl, ?_, ?_, rfl, ?_, ?_⟩
  · unfold retrieveRelevantContext
    by_cases hkb : kb.isEmpty
    · rw [if_pos hkb]
      simp
    · rw [if_neg (by simpa using hkb)]
      by_cases hemb : kbHasEmbeddings kb
      · rw [if_neg (by simpa using hemb)]
        rcases hs : embedQueryStep cache provider query with ⟨r, c, n⟩
        cases r with
        | ok v => exact length_take_map_le _ _
        | error e => exact length_take_map_le _ _
      · rw [if_pos (by simpa using hemb)]
        exact length_take_map_le _ _
  · exact (pairwise_sortScoredDesc _).sublist (List.take_sublist _ _)
  · intro s
    have h1 := (List.take_sublist topK
        (sortScoredDesc (semanticScored kb qe query))).filter
      (fun z => decide (z.score = s))
    rwa [filter_sortScoredDesc] at h1
  · exact (pairwise_sortScoredDesc _).sublist (List.take_sublist _ _)
  · intro s
    have h1 := (List.take_sublist topK
        (sortScoredDesc (lexicalScored kb query))).filter
      (fun z => decide (z.score = s))
    rwa [filter_sortScoredDesc] at h1

/-- C6: one `embedQuery` call keeps the query-embedding cache within its
capacity of 200 entries, and when an insertion would exceed the capacity the
evicted pair is exactly the head of the insertion-ordered cache — the oldest
inserted key (FIFO). -/
theorem embedQueryStep_capacity_fifo (cache : EmbedCache)
    (provider : String → Option (List ℚ)) (text : String)
    (hinv : cache.length ≤ QUERY_EMBED_CACHE_MAX) :
    (embedQueryStep cache provider text).2.1.length ≤ QUERY_EMBED_CACHE_MAX ∧
    (∀ emb, lookupCache cache (normalizeKey text) = none → provider text = some emb →
      emb ≠ [] → cache.length = QUERY_EMBED_CACHE_MAX →
      (embedQueryStep cache provider text).2.1 =
        cache.drop 1 ++ [(normalizeKey text, emb)] ∧
      (embedQueryStep cache provider text).2.1.length = QUERY_EMBED_CACHE_MAX) := by
  constructor
  · cases hl : lookupCache cache (normalizeKey text) with
    | some v =>
      simp only [embedQueryStep, hl]
      exact hinv
    | none =>
      cases hp : provider text with
      | none =>
        simp only [embedQueryStep, hl, hp]
        exact hinv
      | some emb =>
        by_cases he : emb = []
        · simp only [embedQueryStep, hl, hp, if_pos he]
          exact hinv
        · simp only [embedQueryStep, hl, hp, if_neg he]
          by_cases hlen : QUERY_EMBED_CACHE_MAX < (cache ++ [(normalizeKey text, emb)]).length
          · rw [if_pos hlen]
            simp only [List.length_drop, List.length_append, List.length_cons,
              List.length_nil]
            omega
          · rw [if_neg hlen]
            simp only [List.length_append, List.length_cons, List.length_nil] at hlen ⊢
            omega
  · intro emb hmiss hok hne h200
    have hone : 1 ≤ cache.length := by
      rw [h200]
      norm_num [QUERY_EMBED_CACHE_MAX]
    have hcond : QUERY_EMBED_CACHE_MAX < (cache ++ [(normalizeKey text, emb)]).length := by
      simp only [List.length_append, List.length_cons, List.length_nil, h200]
      omega
    have heq : (embedQueryStep cache provider text).2.1 =
        cache.drop 1 ++ [(normalizeKey text, emb)] := by
      simp only [embedQueryStep, hmiss, hok, if_neg hne, if_pos hcond]
      exact List.drop_append_of_le_length hone
    refine ⟨heq, ?_⟩
    rw [heq]
    simp only [List.length_append, List.length_drop, List.length_cons, List.length_nil]
    omega

/-- Closed instance discharging the hypotheses of
`embedQueryStep_capacity_fifo` on a concrete full cache of 200 entries. -/
theorem embedQueryStep_capacity_fifo_witness :
    (embedQueryStep (List.replicate 200 ("a", ([1] : List ℚ)))
      (fun _ => some [2]) "q").2.1.length ≤ QUERY_EMBED_CACHE_MAX ∧
    (embedQueryStep (List.replicate 200 ("a", ([1] : List ℚ)))
      (fun _ => some [2]) "q").2.1 =
      (List.replicate 200 ("a", ([1] : List ℚ))).drop 1 ++ [(normalizeKey "q", [2])] := by
  have h := embedQueryStep_capacity_fifo (List.replicate 200 ("a", ([1] : List ℚ)))
    (fun _ => some [2]) "q" (by simp [QUERY_EMBED_CACHE_MAX])
  have h2 := h.2 [2] rfl rfl (by simp) (by simp [QUERY_EMBED_CACHE_MAX])
  exact ⟨h.1, h2.1⟩

theorem embedQueryStep_hit (c : EmbedCache) (provider : String → Option (List ℚ))
    (t : String) (v : List ℚ) (h : lookupCache c (normalizeKey t) = some v) :
    embedQueryStep c provider t = (.ok v, c, 0) := by
  simp only [embedQueryStep, h]

theorem lookupCache_none_drop (cache : EmbedCache) (key : String)
    (h : lookupCache cache key = none) : lookupCache (cache.drop 1) key = none := by
  unfold lookupCache at *
  have hf : cache.find? (fun kv => kv.1 == key) = none := by
    cases hc : cache.find? (fun kv => kv.1 == key) with
    | none => rfl
    | some kv =>
      rw [hc] at h
      simp at h
  rw [List.find?_eq_none] at hf
  have : (cache.drop 1).find? (fun kv => kv.1 == key) = none := by
    rw [List.find?_eq_none]
    intro x hx
    exact hf x (List.drop_subset 1 cache hx)
  rw [this]
  rfl

theorem lookupCache_append_self (cache : EmbedCache) (key : String) (emb : List ℚ)
    (h : lookupCache cache key = none) :
    lookupCache (cache ++ [(key, emb)]) key = some emb := by
  unfold lookupCache at *
  have hf : cache.find? (fun kv => kv.1 == key) = none := by
    cases hc : cache.find? (fun kv => kv.1 == key) with
    | none => rfl
    | some kv =>
      rw [hc] at h
      simp at h
  rw [List.find?_append, hf]
  simp [List.find?]

/-- C7: two successive `embedQuery` calls whose texts normalize (trim, then
truncate to 5000 characters) to the same cache key make exactly one provider
call: the first call, on a cache miss with a successful non-empty vector,
contacts the provider once and stores the vector; the second returns the
cached vector with zero provider calls and leaves the cache unchanged. -/
theorem embedQuery_second_call_cached (cache : EmbedCache)
    (provider : String → Option (List ℚ)) (t1 t2 : String) (emb : List ℚ)
    (hkey : normalizeKey t2 = normalizeKey t1)
    (hmiss : lookupCache cache (normalizeKey t1) = none)
    (hok : provider t1 = some emb) (hne : emb ≠ []) :
    (embedQueryStep cache provider t1).2.2 = 1 ∧
    embedQueryStep (embedQueryStep cache provider t1).2.1 provider t2 =
      (.ok emb, (embedQueryStep cache provider t1).2.1, 0) := by
  have hc2 : (embedQueryStep cache provider t1).2.1 =
      if QUERY_EMBED_CACHE_MAX < (cache ++ [(normalizeKey t1, emb)]).length
      then (cache ++ [(normalizeKey t1, emb)]).drop 1
      else cache ++ [(normalizeKey t1, emb)] := by
    simp only [embedQueryStep, hmiss, hok, if_neg hne]
  have hcount : (embedQueryStep cache provider t1).2.2 = 1 := by
    simp only [embedQueryStep, hmiss, hok, if_neg hne]
  have hlk : lookupCache (embedQueryStep cache provider t1).2.1 (normalizeKey t1) =
      some emb := by
    rw [hc2]
    by_cases hlen : QUERY_EMBED_CACHE_MAX < (cache ++ [(normalizeKey t1, emb)]).length
    · rw [if_pos hlen]
      have hone : 1 ≤ cache.length := by
        simp only [List.length_append, List.length_cons, List.length_nil,
          QUERY_EMBED_CACHE_MAX] at hlen
        omega
      rw [List.drop_append_of_le_length hone]
      exact lookupCache_append_self _ _ _ (lookupCache_none_drop cache _ hmiss)
    · rw [if_neg hlen]
      exact lookupCache_append_self _ _ _ hmiss
  refine ⟨hcount, ?_⟩
  refine embedQueryStep_hit _ provider t2 emb ?_
  rw [hkey]
  exact hlk

/-- Closed instance discharging the hypotheses of
`embedQuery_second_call_cached` on two texts trimming to the same key. -/
theorem embedQuery_second_call_cached_witness :
    (embedQueryStep [] (fun _ => some [1]) " hi").2.2 = 1 ∧
    embedQueryStep (embedQueryStep [] (fun _ => some [1]) " hi").2.1
        (fun _ => some [1]) "hi " =
      (.ok [1], (embedQueryStep [] (fun _ => some [1]) " hi").2.1, 0) :=
  embedQuery_second_call_cached [] (fun _ => some [1]) " hi" "hi " [1] rfl rfl rfl
    (by simp)

theorem pickLoop_first_success (probe : String → Except String Unit) (m : String)
    (post : List String) (hm : probe m = .ok ()) :
    ∀ (pre probed : List String), (∀ x ∈ pre, ∃ e, probe x = .error e) →
      pickLoop probe (pre ++ m :: post) probed = (.ok m, some m, probed ++ pre ++ [m]) := by
  intro pre
  induction pre with
  | nil =>
    intro probed _
    simp only [List.nil_append, pickLoop, hm]
    simp
  | cons x xs ih =>
    intro probed hpre
    obtain ⟨e, he⟩ := hpre x (List.mem_cons_self x xs)
    simp only [List.cons_append, pickLoop, he, List.append_eq]
    rw [ih (probed ++ [x]) (fun y hy => hpre y (List.mem_cons_of_mem x hy))]
    simp

/-- C8: embedding-model selection commits: a call that finds
`SELECTED_EMBED_MODEL` set returns that model and probes nothing; with a
non-empty explicit override only the override is probed — its success commits
to it, and its failure propagates without probing any other candidate; with no
override the first candidate whose probe succeeds is committed to and the
candidates after it are never probed. -/
theorem pickEmbeddingModel_commit_and_override (probe : String → Except String Unit)
    (candidates : List String) :
    (∀ m ov cs, pickEmbeddingModel probe ov cs (some m) = (.ok m, some m, [])) ∧
    (∀ ov, ov ≠ "" →
      (∀ e, probe ov = .error e →
        pickEmbeddingModel probe ov candidates none =
          (.error (.probeFailed e), none, [ov])) ∧
      (probe ov = .ok () →
        pickEmbeddingModel probe ov candidates none = (.ok ov, some ov, [ov]))) ∧
    (∀ pre m post, (∀ x ∈ pre, ∃ e, probe x = .error e) → probe m = .ok () →
      pickEmbeddingModel probe "" (pre ++ m :: post) none =
        (.ok m, some m, pre ++ [m])) := by
  refine ⟨fun m ov cs => rfl, ?_, ?_⟩
  · intro ov hov
    constructor
    · intro e he
      simp only [pickEmbeddingModel, if_pos hov, he]
    · intro hok
      simp only [pickEmbeddingModel, if_pos hov, hok]
  · intro pre m post hpre hm
    have h := pickLoop_first_success probe m post hm pre [] hpre
    simp only [List.nil_append] at h
    simp only [pickEmbeddingModel]
    rw [if_neg (by simp)]
    exact h

/-- Closed instance discharging the hypotheses of
`pickEmbeddingModel_commit_and_override` with a concrete probe oracle. -/
theorem pickEmbeddingModel_commit_and_override_witness :
    pickEmbeddingModel (fun s => if s = "good" then .ok () else .error "boom")
        "" ["bad", "good", "post"] none = (.ok "good", some "good", ["bad", "good"]) ∧
    pickEmbeddingModel (fun s => if s = "good" then .ok () else .error "boom")
        "ovr" ["bad"] none = (.error (.probeFailed "boom"), none, ["ovr"]) ∧
    pickEmbeddingModel (fun s => if s = "good" then .ok () else .error "boom")
        "ovr" ["bad"] (some "good") = (.ok "good", some "good", []) := by
  have h := pickEmbeddingModel_commit_and_override
    (fun s => if s = "good" then .ok () else .error "boom") ["bad"]
  refine ⟨?_, ?_, h.1 "good" "ovr" ["bad"]⟩
  · have h3 := h.2.2 ["bad"] "good" ["post"]
      (by
        intro x hx
        have hxb : x = "bad" := by simpa using hx
        subst hxb
        exact ⟨"boom", rfl⟩)
      rfl
    simpa using h3
  · exact (h.2.1 "ovr" (by decide)).1 "boom" rfl

theorem retryGo_ok_step (retryable : GenErr → Bool) (backoff : GenErr → ℕ → ℕ)
    (call : ℕ → Except GenErr Unit) (a f : ℕ) (u : Unit) (hc : call a = .ok u) :
    retryGo retryable backoff call a f = (.ok u, []) := by
  cases f with
  | zero =>
    rw [retryGo, hc]
  | succ k =>
    rw [retryGo, hc]

theorem retryGo_error_stop (retryable : GenErr → Bool) (backoff : GenErr → ℕ → ℕ)
    (call : ℕ → Except GenErr Unit) (a f : ℕ) (e : GenErr) (hc : call a = .error e)
    (hr : retryable e = false) :
    retryGo retryable backoff call a f = (.error e, []) := by
  cases f with
  | zero =>
    rw [retryGo, hc]
  | succ k =>
    rw [retryGo, hc]
    simp [hr]

theorem retryGo_error_step (retryable : GenErr → Bool) (backoff : GenErr → ℕ → ℕ)
    (call : ℕ → Except GenErr Unit) (a f : ℕ) (e : GenErr) (hc : call a = .error e)
    (hr : retryable e = true) :
    retryGo retryable backoff call a (f + 1) =
      ((retryGo retryable backoff call (a + 1) f).1,
        backoff e (a + 1) :: (retryGo retryable backoff call (a + 1) f).2) := by
  rw [retryGo, hc]
  simp [hr]

theorem retryGo_const_fail (retryable : GenErr → Bool) (backoff : GenErr → ℕ → ℕ)
    (errs : ℕ → GenErr) (h : ∀ i, retryable (errs i) = true) :
    ∀ (f a : ℕ),
      retryGo retryable backoff (fun i => (Except.error (errs i) : Except GenErr Unit)) a f =
        (.error (errs (a + f)),
          (List.range f).map (fun j => backoff (errs (a + j)) (a + j + 1))) := by
  intro f
  induction f with
  | zero =>
    intro a
    rw [retryGo]
    simp
  | succ k ih =>
    intro a
    rw [retryGo_error_step retryable backoff _ a k (errs a) rfl (h a), ih (a + 1)]
    refine congrArg₂ Prod.mk ?_ ?_
    · have h2 : a + 1 + k = a + (k + 1) := by omega
      rw [h2]
    · rw [List.range_succ_eq_map, List.map_cons, List.map_map]
      refine congrArg₂ List.cons (by simp) ?_
      refine List.map_congr_left ?_
      intro j _
      have h1 : a + 1 + j = a + (j + 1) := by omega
      simp only [Function.comp_apply, Nat.succ_eq_add_one, h1]

/-- C4 amended: the `withRetry` helpers (knowledge-base build script, the
model-probing rag revision and the chat endpoint) wait exactly (N+1) s when
the rate-limit error carries a structured retry-after hint of N seconds, and
otherwise wait min(60 s, 1 s × 2^k) before retry number k; the
`embedWithRetry` variant instead never consults the hint and waits
min(30 s, 1 s × 2^k). -/
theorem withRetry_backoff_schedule (k : ℕ) :
    (∀ e n, parseRetryDelaySeconds e = some n → backoffMs e k = (n + 1) * 1000) ∧
    (∀ e, parseRetryDelaySeconds e = none → backoffMs e k = min 60000 (1000 * 2 ^ k)) ∧
    (∀ (errs : ℕ → GenErr) (maxR : ℕ), (∀ i, (errs i).status = 429) →
      (withRetry (fun i => (Except.error (errs i) : Except GenErr Unit)) maxR).2 =
        (List.range maxR).map (fun j => backoffMs (errs j) (j + 1))) ∧
    (∀ (errs : ℕ → GenErr) (maxR : ℕ), (∀ i, (errs i).status = 429) →
      (embedWithRetry (fun i => (Except.error (errs i) : Except GenErr Unit)) maxR).2 =
        (List.range maxR).map (fun j => embedBackoffMs (j + 1))) := by
  refine ⟨?_, ?_, ?_, ?_⟩
  · intro e n h
    simp [backoffMs, h]
  · intro e h
    simp [backoffMs, h]
  · intro errs maxR h
    unfold withRetry
    rw [retryGo_const_fail _ _ errs (fun i => by simp [h i]) maxR 0]
    simp
  · intro errs maxR h
    unfold embedWithRetry
    rw [retryGo_const_fail _ _ errs (fun i => by simp [h i]) maxR 0]
    simp

/-- Closed instance discharging the hypotheses of `withRetry_backoff_schedule`
at concrete errors and attempt numbers. -/
theorem withRetry_backoff_schedule_witness :
    backoffMs ⟨429, some 5⟩ 3 = 6000 ∧
    backoffMs ⟨429, none⟩ 3 = 8000 ∧
    (withRetry (fun _ => (Except.error (⟨429, none⟩ : GenErr) : Except GenErr Unit)) 2).2 =
      [2000, 4000] ∧
    (embedWithRetry
        (fun _ => (Except.error (⟨429, some 5⟩ : GenErr) : Except GenErr Unit)) 6).2 =
      [2000, 4000, 8000, 16000, 30000, 30000] := by
  have h3 := withRetry_backoff_schedule 3
  refine ⟨?_, ?_, ?_, ?_⟩
  · rw [h3.1 ⟨429, some 5⟩ 5 rfl]
  · rw [h3.2.1 ⟨429, none⟩ rfl]
    decide
  · rw [h3.2.2.1 (fun _ => ⟨429, none⟩) 2 (fun _ => rfl)]
    rfl
  · rw [h3.2.2.2 (fun _ => ⟨429, some 5⟩) 6 (fun _ => rfl)]
    rfl

/-- C4 counterexample: `embedWithRetry` is a retried provider call, yet with a
rate-limit error carrying the structured hint "retry after 5 seconds" it waits
2 s before the first retry (not the claimed 5+1 = 6 s), and before retry 5 it
waits 30 s where the claimed schedule min(60 s, 2^5 s) gives 32 s. -/
theorem embedWithRetry_hint_and_cap_counterexample :
    (embedWithRetry
        (fun _ => (Except.error (⟨429, some 5⟩ : GenErr) : Except GenErr Unit)) 6) =
      (.error ⟨429, some 5⟩, [2000, 4000, 8000, 16000, 30000, 30000]) ∧
    (5 + 1) * 1000 ≠ 2000 ∧
    min 60000 (1000 * 2 ^ 5) ≠ 30000 :=
  ⟨rfl, by decide, by decide⟩

/-- C5 amended: the embedding-side `withRetry` retries only rate-limit (429)
errors; only the chat-endpoint `withRetry` also retries the transient 500 and
503 classes; any other error propagates immediately with no retry; and when
every attempt fails retryably the error of the final attempt (after
`maxRetries` waits) is surfaced to the caller. -/
theorem retry_status_classes :
    (∀ (call : ℕ → Except GenErr Unit) (maxR : ℕ) (e : GenErr), call 0 = .error e →
      e.status ≠ 429 → withRetry call maxR = (.error e, [])) ∧
    (∀ (call : ℕ → Except GenErr Unit) (maxR : ℕ) (e : GenErr), call 0 = .error e →
      e.status ≠ 429 → e.status ≠ 500 → e.status ≠ 503 →
      chatWithRetry call maxR = (.error e, [])) ∧
    (∀ (call : ℕ → Except GenErr Unit) (m : ℕ) (e : GenErr), call 0 = .error e →
      e.status = 429 →
      (withRetry call (m + 1)).2 =
        backoffMs e 1 :: (retryGo (fun x => x.status == 429) backoffMs call 1 m).2) ∧
    (∀ (call : ℕ → Except GenErr Unit) (m : ℕ) (e : GenErr), call 0 = .error e →
      (e.status = 429 ∨ e.status = 500 ∨ e.status = 503) →
      (chatWithRetry call (m + 1)).2 =
        backoffMs e 1 ::
          (retryGo (fun x => x.status == 429 || x.status == 500 || x.status == 503)
            backoffMs call 1 m).2) ∧
    (∀ (errs : ℕ → GenErr) (maxR : ℕ), (∀ i, (errs i).status = 429) →
      (withRetry (fun i => (Except.error (errs i) : Except GenErr Unit)) maxR).1 =
        .error (errs maxR) ∧
      (chatWithRetry (fun i => (Except.error (errs i) : Except GenErr Unit)) maxR).1 =
        .error (errs maxR)) := by
  refine ⟨?_, ?_, ?_, ?_, ?_⟩
  · intro call maxR e hc h429
    exact retryGo_error_stop _ _ call 0 maxR e hc (by simp [h429])
  · intro call maxR e hc h429 h500 h503
    exact retryGo_error_stop _ _ call 0 maxR e hc (by simp [h429, h500, h503])
  · intro call m e hc h429
    unfold withRetry
    rw [retryGo_error_step _ _ call 0 m e hc (by simp [h429])]
  · intro call m e hc hcls
    unfold chatWithRetry
    rw [retryGo_error_step _ _ call 0 m e hc
      (by rcases hcls with h | h | h <;> simp [h])]
  · intro errs maxR h
    constructor
    · unfold withRetry
      rw [retryGo_const_fail _ _ errs (fun i => by simp [h i]) maxR 0]
      simp
    · unfold chatWithRetry
      rw [retryGo_const_fail _ _ errs (fun i => by simp [h i]) maxR 0]
      simp

/-- Closed instance discharging the hypotheses of `retry_status_classes` at
concrete statuses. -/
theorem retry_status_classes_witness :
    withRetry (fun _ => (Except.error (⟨404, none⟩ : GenErr) : Except GenErr Unit)) 6 =
      (.error ⟨404, none⟩, []) ∧
    chatWithRetry (fun _ => (Except.error (⟨404, none⟩ : GenErr) : Except GenErr Unit)) 6 =
      (.error ⟨404, none⟩, []) ∧
    (withRetry (fun _ => (Except.error (⟨429, none⟩ : GenErr) : Except GenErr Unit)) 3).2 =
      backoffMs ⟨429, none⟩ 1 ::
        (retryGo (fun x => x.status == 429) backoffMs
          (fun _ => (Except.error (⟨429, none⟩ : GenErr) : Except GenErr Unit)) 1 2).2 ∧
    (chatWithRetry (fun _ => (Except.error (⟨503, none⟩ : GenErr) : Except GenErr Unit)) 3).2 =
      backoffMs ⟨503, none⟩ 1 ::
        (retryGo (fun x => x.status == 429 || x.status == 500 || x.status == 503) backoffMs
          (fun _ => (Except.error (⟨503, none⟩ : GenErr) : Except GenErr Unit)) 1 2).2 ∧
    (withRetry (fun _ => (Except.error (⟨429, none⟩ : GenErr) : Except GenErr Unit)) 4).1 =
      .error ⟨429, none⟩ ∧
    (chatWithRetry (fun _ => (Except.error (⟨429, none⟩ : GenErr) : Except GenErr Unit)) 4).1 =
      .error ⟨429, none⟩ := by
  have h := retry_status_classes
  exact ⟨h.1 _ 6 _ rfl (by decide), h.2.1 _ 6 _ rfl (by decide) (by decide) (by decide),
    h.2.2.1 _ 2 _ rfl rfl, h.2.2.2.1 _ 2 _ rfl (Or.inr (Or.inr rfl)),
    (h.2.2.2.2 (fun _ => ⟨429, none⟩) 4 (fun _ => rfl)).1,
    (h.2.2.2.2 (fun _ => ⟨429, none⟩) 4 (fun _ => rfl)).2⟩

/-- C5 counterexample: a 500-status (transient server) error on the first call
is not retried by the embedding-side `withRetry` — the call fails immediately
with no backoff, although a retry would have succeeded, as the chat-endpoint
variant of `withRetry` shows on the same oracle. -/
theorem withRetry_500_not_retried_counterexample :
    withRetry
        (fun i => if i = 0 then (Except.error (⟨500, none⟩ : GenErr)) else Except.ok ()) 6 =
      (.error ⟨500, none⟩, []) ∧
    chatWithRetry
        (fun i => if i = 0 then (Except.error (⟨500, none⟩ : GenErr)) else Except.ok ()) 6 =
      (.ok (), [2000]) :=
  ⟨rfl, rfl⟩
